import Mathlib

/-!
# Formal model of the `lambda_search_rank_and_reasoning` service

A shallow embedding, in Lean 4, of the ranking / reasoning pipeline:

* `FingerprintMapper` (ranking.py): identity anonymization — token allocation
  (`get_fingerprint`) and reverse substitution (`replace_fingerprints_in_results`);
* batch scheduling and error isolation (`process_people_direct`, `process_batch`);
* LLM retry / fallback logic (`process_batch`'s retry loop, `LLMManager.get_completion`,
  `LLMManager._try_fallback` in llm_helper.py);
* tolerant response parsing (`extract_score_data` in ranking.py);
* score / reasoning reconciliation and final candidate ordering
  (`process_reasoning_request` in lambda_handler.py).

Python strings are modelled as `String` / `List Char`, Python numbers as `ℚ`,
Python `dict`s as insertion-ordered association lists (`List (String × _)`),
raised exceptions as `Except` values, and `await`-sequenced coroutine code as
sequential state passing (all shared state in the source is mutated inside one
`asyncio.Lock` critical section, so the interleaving is serialized).
-/

namespace RankReason

/-! ## Python-dict primitives -/

/-- Association-list lookup: value at the first entry with the given key
(a Python `dict` read; the other operations only ever produce duplicate-free keys). -/
def alookup {α : Type} : List (String × α) → String → Option α
  | [], _ => none
  | (k, v) :: t, key => if k = key then some v else alookup t key

/-- Python `dict` assignment `d[k] = v`: replace the value at the first occurrence of
the key in place, otherwise append the pair at the end (insertion-order preservation). -/
def dictInsert {α : Type} : List (String × α) → String → α → List (String × α)
  | [], k, v => [(k, v)]
  | (k', v') :: t, k, v => if k' = k then (k, v) :: t else (k', v') :: dictInsert t k v

/-- A sequence of Python `dict` assignments, leftmost first. -/
def dictInsertMany {α : Type} (d : List (String × α)) (kvs : List (String × α)) :
    List (String × α) :=
  kvs.foldl (fun acc kv => dictInsert acc kv.1 kv.2) d

/-- The keys of the dict, in insertion order. -/
def dictKeys {α : Type} (d : List (String × α)) : List String := d.map Prod.fst

@[simp] theorem alookup_nil {α : Type} (k : String) : alookup ([] : List (String × α)) k = none :=
  rfl

@[simp] theorem alookup_cons {α : Type} (k' : String) (v' : α) (t : List (String × α))
    (k : String) :
    alookup ((k', v') :: t) k = if k' = k then some v' else alookup t k := rfl

@[simp] theorem dictKeys_nil {α : Type} : dictKeys ([] : List (String × α)) = [] := rfl

@[simp] theorem dictKeys_cons {α : Type} (k : String) (v : α) (t : List (String × α)) :
    dictKeys ((k, v) :: t) = k :: dictKeys t := rfl

theorem alookup_dictInsert {α : Type} (d : List (String × α)) (k : String) (v : α)
    (key : String) :
    alookup (dictInsert d k v) key = if k = key then some v else alookup d key := by
  induction d with
  | nil => simp [dictInsert]
  | cons hd t ih =>
    obtain ⟨k', v'⟩ := hd
    by_cases hk : k' = k
    · subst hk
      by_cases hkey : k' = key <;> simp [dictInsert, hkey]
    · by_cases hkey : k' = key
      · subst hkey
        have hne : ¬k = k' := fun h => hk h.symm
        simp [dictInsert, hk, hne]
      · simp [dictInsert, hk, hkey, ih]

theorem dictKeys_dictInsert_of_mem {α : Type} (d : List (String × α)) (k : String) (v : α)
    (h : k ∈ dictKeys d) : dictKeys (dictInsert d k v) = dictKeys d := by
  induction d with
  | nil => simp at h
  | cons hd t ih =>
    obtain ⟨k', v'⟩ := hd
    by_cases hk : k' = k
    · subst hk
      simp [dictInsert]
    · have hmem : k ∈ dictKeys t := by
        rcases List.mem_cons.mp (by simpa using h) with h1 | h1
        · exact absurd h1.symm hk
        · exact h1
      simp only [dictInsert, if_neg hk, dictKeys_cons]
      rw [ih hmem]

theorem dictKeys_dictInsert_of_not_mem {α : Type} (d : List (String × α)) (k : String) (v : α)
    (h : k ∉ dictKeys d) : dictKeys (dictInsert d k v) = dictKeys d ++ [k] := by
  induction d with
  | nil => simp [dictInsert]
  | cons hd t ih =>
    obtain ⟨k', v'⟩ := hd
    simp only [dictKeys_cons, List.mem_cons] at h
    push_neg at h
    have hk : ¬k' = k := fun h' => h.1 h'.symm
    simp only [dictInsert, if_neg hk, dictKeys_cons, List.cons_append]
    rw [ih h.2]

theorem dictInsert_of_not_mem {α : Type} (d : List (String × α)) (k : String) (v : α)
    (h : k ∉ dictKeys d) : dictInsert d k v = d ++ [(k, v)] := by
  induction d with
  | nil => simp [dictInsert]
  | cons hd t ih =>
    obtain ⟨k', v'⟩ := hd
    simp only [dictKeys_cons, List.mem_cons] at h
    push_neg at h
    have hk : ¬k' = k := fun h' => h.1 h'.symm
    simp only [dictInsert, if_neg hk, List.cons_append]
    rw [ih h.2]

/-! ## FingerprintMapper (ranking.py, class `FingerprintMapper`) -/

/-- State of a `FingerprintMapper`: the forward map `_map` (identity → token),
the reverse map `_reverse_map` (token → identity) and the allocation counter
`_current_char`.  The `asyncio.Lock` serializes all mutation, so the state is
threaded sequentially. -/
structure FingerprintMapper where
  fmap : List (String × String)
  rmap : List (String × String)
  current : List Char
deriving DecidableEq, Repr

/-- `FingerprintMapper.__init__`: empty maps, counter `'a'`. -/
def initMapper : FingerprintMapper := ⟨[], [], ['a']⟩

/-- The "move to next character" block at the end of `get_fingerprint`
(ranking.py lines 280-293), verbatim:

* `'z'` becomes `'aa'`;
* a single character is advanced by one code point;
* a longer string ending in `'z'` has the `'z'` replaced by `'aa'` (`s[:-1] + 'a' + 'a'`);
* otherwise the last character is advanced by one code point. -/
def nextFingerprint (s : List Char) : List Char :=
  if s = ['z'] then ['a', 'a']
  else if s.length = 1 then [Char.ofNat ((s.getLastD 'a').toNat + 1)]
  else if s.getLastD 'a' = 'z' then s.dropLast ++ ['a', 'a']
  else s.dropLast ++ [Char.ofNat ((s.getLastD 'a').toNat + 1)]

/-- `FingerprintMapper.get_fingerprint`: the empty name short-circuits to `""`;
an already-seen name returns its existing token unchanged; a fresh name is
assigned `_current_char`, both maps are extended, and the counter advances. -/
def getFingerprint (m : FingerprintMapper) (name : String) : String × FingerprintMapper :=
  if name = "" then ("", m)
  else
    match alookup m.fmap name with
    | some fp => (fp, m)
    | none =>
      let fp := String.mk m.current
      (fp, ⟨dictInsert m.fmap name fp, dictInsert m.rmap fp name, nextFingerprint m.current⟩)

/-- A sequence of `get_fingerprint` calls within one invocation, returning the
tokens in call order together with the final mapper state. -/
def runMapperAux (m : FingerprintMapper) : List String → List String × FingerprintMapper
  | [] => ([], m)
  | n :: t =>
    let r := getFingerprint m n
    let rest := runMapperAux r.2 t
    (r.1 :: rest.1, rest.2)

/-- All tokens handed out for `names`, starting from a fresh mapper. -/
def runMapper (names : List String) : List String × FingerprintMapper :=
  runMapperAux initMapper names

/-- The token actually allocated for the `n`-th distinct identity (0-indexed):
`'a'` repeated `n / 26` times followed by the `(n % 26)`-th lowercase letter.
So the sequence runs `a, …, z, aa, …, az, aaa, …, aaz, aaaa, …` — after `az`
the code appends a letter instead of carrying, so `ba` is never produced. -/
def tokSpec (n : Nat) : List Char :=
  List.replicate (n / 26) 'a' ++ [Char.ofNat (97 + n % 26)]

theorem toNat_ofNat_of_lt {n : Nat} (h : n < 55296) : (Char.ofNat n).toNat = n := by
  unfold Char.ofNat
  rw [dif_pos (Or.inl h)]
  rfl

theorem nextFingerprint_tokSpec (n : Nat) : nextFingerprint (tokSpec n) = tokSpec (n + 1) := by
  have hr : n % 26 < 26 := Nat.mod_lt _ (by norm_num)
  have hchar : (Char.ofNat (97 + n % 26)).toNat = 97 + n % 26 :=
    toNat_ofNat_of_lt (by omega)
  have hchar_z : Char.ofNat (97 + n % 26) = 'z' ↔ n % 26 = 25 := by
    constructor
    · intro h
      have h2 := congrArg Char.toNat h
      rw [hchar] at h2
      have hz : ('z').toNat = 122 := by decide
      omega
    · intro h
      rw [h]
  rcases Nat.eq_zero_or_pos (n / 26) with hq | hq
  · -- single-letter counter: only 26 concrete cases
    have hn : n < 26 := by omega
    interval_cases n <;> decide
  · -- multi-letter counter
    have hlen : (tokSpec n).length = n / 26 + 1 := by
      simp [tokSpec]
    have hne_z : tokSpec n ≠ ['z'] := by
      intro h
      have h2 := congrArg List.length h
      rw [hlen] at h2
      simp at h2
      omega
    have hne_len : ¬(tokSpec n).length = 1 := by omega
    have hlast : (tokSpec n).getLastD 'a' = Char.ofNat (97 + n % 26) :=
      List.getLastD_concat _ _ _
    have hdrop : (tokSpec n).dropLast = List.replicate (n / 26) 'a' :=
      List.dropLast_concat
    rcases Nat.lt_or_ge (n % 26) 25 with h25 | h25
    · have hcne : ¬(tokSpec n).getLastD 'a' = 'z' := by
        rw [hlast, hchar_z]
        omega
      unfold nextFingerprint
      rw [if_neg hne_z, if_neg hne_len, if_neg hcne, hlast, hdrop, hchar]
      have h1 : (n + 1) / 26 = n / 26 := by omega
      have h2 : (n + 1) % 26 = n % 26 + 1 := by omega
      unfold tokSpec
      rw [h1, h2, Nat.add_assoc]
    · have h25' : n % 26 = 25 := by omega
      have hceq : (tokSpec n).getLastD 'a' = 'z' := by
        rw [hlast, hchar_z]
        omega
      unfold nextFingerprint
      rw [if_neg hne_z, if_neg hne_len, if_pos hceq, hdrop]
      have h1 : (n + 1) / 26 = n / 26 + 1 := by omega
      have h2 : (n + 1) % 26 = 0 := by omega
      unfold tokSpec
      rw [h1, h2, List.replicate_succ' (n / 26) 'a']
      have ha : Char.ofNat (97 + 0) = 'a' := by decide
      rw [ha, List.append_assoc]
      rfl

theorem getFingerprint_empty (m : FingerprintMapper) : getFingerprint m "" = ("", m) := by
  simp [getFingerprint]

theorem alookup_fmap_getFingerprint (m : FingerprintMapper) (n k : String) (v : String)
    (h : alookup m.fmap k = some v) :
    alookup ((getFingerprint m n).2).fmap k = some v := by
  unfold getFingerprint
  by_cases hn : n = ""
  · simp [hn, h]
  · rw [if_neg hn]
    cases hfind : alookup m.fmap n with
    | some fp => simpa using h
    | none =>
      simp only
      rw [alookup_dictInsert]
      by_cases hnk : n = k
      · subst hnk
        rw [hfind] at h
        exact absurd h (by simp)
      · rw [if_neg hnk]
        exact h

theorem alookup_fmap_getFingerprint_self (m : FingerprintMapper) (n : String) (hn : n ≠ "") :
    alookup ((getFingerprint m n).2).fmap n = some (getFingerprint m n).1 := by
  unfold getFingerprint
  rw [if_neg hn]
  cases hfind : alookup m.fmap n with
  | some fp => simpa using hfind
  | none =>
    simp only
    rw [alookup_dictInsert, if_pos rfl]

theorem alookup_fmap_runMapperAux (names : List String) (m : FingerprintMapper)
    (k v : String) (h : alookup m.fmap k = some v) :
    alookup ((runMapperAux m names).2).fmap k = some v := by
  induction names generalizing m with
  | nil => exact h
  | cons nm t ih =>
    exact ih _ (alookup_fmap_getFingerprint m nm k v h)

/-- The token emitted at position `i` of a call sequence is recorded in the final
forward map (for a non-empty name). -/
theorem runMapperAux_token_lookup (names : List String) (m : FingerprintMapper)
    (i : Nat) (n : String) (hget : names[i]? = some n) (hn : n ≠ "") :
    ∃ t, ((runMapperAux m names).1)[i]? = some t ∧
      alookup ((runMapperAux m names).2).fmap n = some t := by
  induction names generalizing m i with
  | nil => simp at hget
  | cons nm t ih =>
    cases i with
    | zero =>
      simp only [List.getElem?_cons_zero, Option.some.injEq] at hget
      subst hget
      refine ⟨(getFingerprint m nm).1, ?_, ?_⟩
      · simp [runMapperAux]
      · exact alookup_fmap_runMapperAux t _ nm _ (alookup_fmap_getFingerprint_self m nm hn)
    | succ i =>
      simp only [List.getElem?_cons_succ] at hget
      obtain ⟨tok, h1, h2⟩ := ih (getFingerprint m nm).2 i hget
      exact ⟨tok, by simpa [runMapperAux] using h1, h2⟩

/-- The empty name always yields the empty token. -/
theorem runMapperAux_token_empty (names : List String) (m : FingerprintMapper)
    (i : Nat) (hget : names[i]? = some "") :
    ((runMapperAux m names).1)[i]? = some "" := by
  induction names generalizing m i with
  | nil => simp at hget
  | cons nm t ih =>
    cases i with
    | zero =>
      simp only [List.getElem?_cons_zero, Option.some.injEq] at hget
      subst hget
      simp [runMapperAux, getFingerprint_empty]
    | succ i =>
      simp only [List.getElem?_cons_succ] at hget
      simpa [runMapperAux] using ih (getFingerprint m nm).2 i hget

/-- Fresh names are allocated consecutive `tokSpec` tokens. -/
theorem runMapperAux_fresh (names : List String) (m : FingerprintMapper) (c : Nat)
    (hcur : m.current = tokSpec c)
    (hfresh : ∀ n ∈ names, alookup m.fmap n = none)
    (hne : ∀ n ∈ names, n ≠ "")
    (hnodup : names.Nodup) :
    (runMapperAux m names).1 =
      (List.range names.length).map (fun i => String.mk (tokSpec (c + i))) := by
  induction names generalizing m c with
  | nil => simp [runMapperAux]
  | cons nm t ih =>
    have hnm : nm ≠ "" := hne nm (List.mem_cons_self nm t)
    have hnone : alookup m.fmap nm = none := hfresh nm (List.mem_cons_self nm t)
    have hstep : getFingerprint m nm =
        (String.mk m.current,
          ⟨dictInsert m.fmap nm (String.mk m.current),
            dictInsert m.rmap (String.mk m.current) nm, nextFingerprint m.current⟩) := by
      unfold getFingerprint
      rw [if_neg hnm, hnone]
    have hrest : (runMapperAux (getFingerprint m nm).2 t).1 =
        (List.range t.length).map (fun i => String.mk (tokSpec (c + 1 + i))) := by
      apply ih
      · rw [hstep]
        simp only
        rw [hcur, nextFingerprint_tokSpec]
      · intro n hn
        rw [hstep]
        simp only
        rw [alookup_dictInsert]
        have : nm ≠ n := by
          rintro rfl
          exact (List.nodup_cons.mp hnodup).1 hn
        rw [if_neg this]
        exact hfresh n (List.mem_cons_of_mem _ hn)
      · exact fun n hn => hne n (List.mem_cons_of_mem _ hn)
      · exact (List.nodup_cons.mp hnodup).2
    show (getFingerprint m nm).1 :: (runMapperAux (getFingerprint m nm).2 t).1 = _
    rw [hrest, hstep]
    simp only [List.length_cons, List.range_succ_eq_map, List.map_cons, List.map_map]
    congr 1
    · rw [hcur, Nat.add_zero]
    · apply List.map_congr_left
      intro i _
      have h : c + 1 + i = c + (i + 1) := by omega
      simp [Function.comp, h]

/-- `runMapper` token list has the same length as the input. -/
theorem runMapperAux_length (names : List String) (m : FingerprintMapper) :
    (runMapperAux m names).1.length = names.length := by
  induction names generalizing m with
  | nil => rfl
  | cons nm t ih => simpa [runMapperAux] using ih (getFingerprint m nm).2

/-- 53 distinct single-character identities, to drive the allocator past `az`. -/
def c1Names : List String := (List.range 53).map (fun i => String.mk [Char.ofNat (48 + i)])

set_option maxRecDepth 4000 in
/-- **C1 — counterexample.**  The claim says the tokens are allocated in
spreadsheet-column order `a, b, …, z, aa, ab, …, az, ba, …`, so the 53rd distinct
identity would receive `"ba"`.  Running `get_fingerprint` on 53 distinct identities,
the 52nd token is `"az"` but the 53rd is `"aaa"`: the code replaces a trailing `'z'`
by `"aa"` (appending a letter) instead of carrying into the previous position. -/
theorem c1_token_order_counterexample :
    (runMapper c1Names).1[51]? = some "az" ∧
    (runMapper c1Names).1[52]? = some "aaa" ∧ ("aaa" : String) ≠ "ba" := by
  refine ⟨by decide, by decide, by decide⟩

/-- **C1 (amended).**  Within one invocation: (1) any identity requested twice
receives the identical token both times; (2) for `N` distinct non-empty identities
the tokens are allocated in the exact order `a, b, …, z, aa, ab, …, az, aaa, aab, …`
— i.e. the `i`-th token is `'a'` repeated `i / 26` times followed by the
`(i % 26)`-th lowercase letter (`tokSpec`); after `az` the next token is `aaa`,
not `ba` as base-26 spreadsheet naming would give. -/
theorem c1_tokenize_dedup_and_order :
    (∀ (names : List String) (i j : Nat) (x : String),
        names[i]? = some x → names[j]? = some x →
        (runMapper names).1[i]? = (runMapper names).1[j]?) ∧
    (∀ names : List String, (∀ n ∈ names, n ≠ "") → names.Nodup →
        (runMapper names).1 =
          (List.range names.length).map (fun i => String.mk (tokSpec i))) := by
  constructor
  · intro names i j x hi hj
    show (runMapperAux initMapper names).1[i]? = (runMapperAux initMapper names).1[j]?
    by_cases hx : x = ""
    · subst hx
      rw [runMapperAux_token_empty names initMapper i hi,
        runMapperAux_token_empty names initMapper j hj]
    · obtain ⟨t1, h1, h1'⟩ := runMapperAux_token_lookup names initMapper i x hi hx
      obtain ⟨t2, h2, h2'⟩ := runMapperAux_token_lookup names initMapper j x hj hx
      rw [h1, h2, Option.some.inj (h1'.symm.trans h2')]
  · intro names hne hnodup
    have h := runMapperAux_fresh names initMapper 0 (by decide)
      (fun n _ => rfl) hne hnodup
    simpa using h

/-- **C1 — witness.**  The dedup part at `["p", "q", "p"]` (positions 0 and 2 get the
same token) and the allocation-order part at `["x", "y", "z"]`. -/
theorem c1_tokenize_dedup_and_order_witness :
    (runMapper ["p", "q", "p"]).1[0]? = (runMapper ["p", "q", "p"]).1[2]? ∧
    (runMapper ["x", "y", "z"]).1 =
      (List.range (["x", "y", "z"] : List String).length).map (fun i => String.mk (tokSpec i)) :=
  ⟨c1_tokenize_dedup_and_order.1 ["p", "q", "p"] 0 2 "p" (by decide) (by decide),
   c1_tokenize_dedup_and_order.2 ["x", "y", "z"] (by decide) (by decide)⟩

/-! ## Python values and LLM result records -/

/-- The Python values that occur in the pipeline's record/candidate dicts. -/
inductive PyVal where
  | vStr (s : String)
  | vNum (q : ℚ)
  | vBool (b : Bool)
  | vNone
  | vStrList (l : List String)
deriving DecidableEq, Repr

/-- One parsed result dict as it reaches `replace_fingerprints_in_results`:
the `id` field holds the fingerprint token (or `None`), and the fields the method
may write (`nodeId`, `userId`, `name`) are explicit; all remaining entries
(match scores, skills, …) are untouched by the method and sit in `payload`. -/
structure LLMRecord where
  id : Option String
  nodeId : Option String
  userId : Option String
  name : Option String
  payload : List (String × PyVal)
deriving DecidableEq, Repr

/-- An entry of `original_data` (a transformed person dict): the three fields
`replace_fingerprints_in_results` reads, each possibly missing. -/
structure OrigPerson where
  nodeId : Option String
  userId : Option String
  name : Option String
deriving DecidableEq, Repr

/-- `FingerprintMapper.replace_fingerprints_in_results` (ranking.py lines 301-334).
For each result: look the `id` token up in `_reverse_map`; if it resolves and the
node id is found in `original_data`, write `nodeId`/`userId`/`name` (with `''`
defaults) and delete `id`; otherwise only log a warning — the record is appended
to the output **unchanged** in both failure cases (`updated_results.append` runs
unconditionally). -/
def replaceFingerprintsInResults (m : FingerprintMapper) (results : List LLMRecord)
    (originalData : List OrigPerson) : List LLMRecord :=
  results.map (fun result =>
    match result.id.bind (alookup m.rmap) with
    | some nodeId =>
      match originalData.find? (fun p => p.nodeId == some nodeId) with
      | some p =>
          { result with
              id := none
              nodeId := some nodeId
              userId := some (p.userId.getD "")
              name := some (p.name.getD "") }
      | none => result
    | none => result)

/-- A record whose token is unknown to the mapper. -/
def c4Record : LLMRecord := ⟨some "a", none, none, none, []⟩

/-- **C4 — counterexample.**  The claim says a record whose token does not resolve
in the identity mapping is dropped from the output and that no token ever appears
in the final output.  With a fresh mapper (empty reverse map) and one record whose
`id` is the token `"a"`, `replace_fingerprints_in_results` keeps the record and the
token stays in its `id` field. -/
theorem c4_unresolved_token_counterexample :
    replaceFingerprintsInResults initMapper [c4Record] [] = [c4Record] ∧
    c4Record.id = some "a" :=
  ⟨rfl, rfl⟩

/-- **C4 (amended).**  `replace_fingerprints_in_results` never drops a record and
never raises: the output has exactly the length of the input.  A record whose token
does not resolve in the reverse map is passed through **unchanged** (with a warning;
its token stays in `id`); likewise a record whose token resolves but whose identity
is absent from `original_data`.  Only a record whose token resolves to an identity
present in `original_data` has its token removed and replaced by that candidate's
`nodeId`/`userId`/`name`. -/
theorem c4_replace_fingerprints_characterization
    (m : FingerprintMapper) (results : List LLMRecord) (orig : List OrigPerson) :
    (replaceFingerprintsInResults m results orig).length = results.length ∧
    (∀ (i : Nat) (r : LLMRecord), results[i]? = some r →
      r.id.bind (alookup m.rmap) = none →
      (replaceFingerprintsInResults m results orig)[i]? = some r) ∧
    (∀ (i : Nat) (r : LLMRecord) (nid : String), results[i]? = some r →
      r.id.bind (alookup m.rmap) = some nid →
      orig.find? (fun p => p.nodeId == some nid) = none →
      (replaceFingerprintsInResults m results orig)[i]? = some r) ∧
    (∀ (i : Nat) (r : LLMRecord) (nid : String) (p : OrigPerson), results[i]? = some r →
      r.id.bind (alookup m.rmap) = some nid →
      orig.find? (fun q => q.nodeId == some nid) = some p →
      (replaceFingerprintsInResults m results orig)[i]? =
        some { r with
                 id := none
                 nodeId := some nid
                 userId := some (p.userId.getD "")
                 name := some (p.name.getD "") }) := by
  refine ⟨List.length_map _ _, ?_, ?_, ?_⟩
  · intro i r hr hid
    unfold replaceFingerprintsInResults
    rw [List.getElem?_map, hr]
    simp [hid]
  · intro i r nid hr hid hfind
    unfold replaceFingerprintsInResults
    rw [List.getElem?_map, hr]
    simp [hid, hfind]
  · intro i r nid p hr hid hfind
    unfold replaceFingerprintsInResults
    rw [List.getElem?_map, hr]
    simp [hid, hfind]

/-- **C4 — witness.**  The three cases at concrete inputs: an unresolvable token,
a resolvable token with missing original data, and a fully resolvable token. -/
theorem c4_replace_fingerprints_characterization_witness :
    (replaceFingerprintsInResults initMapper [c4Record] [])[0]? = some c4Record ∧
    (replaceFingerprintsInResults ⟨[], [("a", "n1")], ['a']⟩ [c4Record] [])[0]? =
      some c4Record ∧
    (replaceFingerprintsInResults ⟨[], [("a", "n1")], ['a']⟩ [c4Record]
        [⟨some "n1", some "u1", some "Ada"⟩])[0]? =
      some { c4Record with
               id := none
               nodeId := some "n1"
               userId := some "u1"
               name := some "Ada" } :=
  ⟨(c4_replace_fingerprints_characterization initMapper [c4Record] []).2.1 0 c4Record
      (by decide) (by decide),
   (c4_replace_fingerprints_characterization ⟨[], [("a", "n1")], ['a']⟩ [c4Record] []).2.2.1
      0 c4Record "n1" (by decide) (by decide) (by decide),
   (c4_replace_fingerprints_characterization ⟨[], [("a", "n1")], ['a']⟩ [c4Record]
      [⟨some "n1", some "u1", some "Ada"⟩]).2.2.2 0 c4Record "n1" ⟨some "n1", some "u1", some "Ada"⟩
      (by decide) (by decide) (by decide)⟩

/-! ## LLM completion: retry and fallback (llm_helper.py; ranking.py `process_batch`) -/

/-- A raised Python exception: `OpenAIError` (the provider-error type that
`get_completion` and `_try_fallback` catch) or any other exception class. -/
inductive PyErr where
  | openai (msg : String)
  | other (msg : String)
deriving DecidableEq, Repr

/-- `LLMManager.get_completion` together with `LLMManager._try_fallback`
(llm_helper.py lines 45-101), with the two `litellm.acompletion` outcomes
supplied as arguments:

* a primary success returns immediately (no fallback call);
* an `OpenAIError` from the primary triggers one fallback attempt when the
  `fallback` flag is set and the config carries a `fallback_model`;
* a fallback success is returned; an `OpenAIError` from the fallback re-raises
  the *original* error; a non-`OpenAIError` raised anywhere propagates as-is.

Returns the call outcome together with whether the fallback model was called. -/
def getCompletion (cfgFallback : Option String) (fallbackEnabled : Bool)
    (primary : Except PyErr String) (fb : Except PyErr String) :
    Except PyErr String × Bool :=
  match primary with
  | .ok r => (.ok r, false)
  | .error e =>
    match e with
    | .openai _ =>
      if fallbackEnabled ∧ cfgFallback.isSome then
        match fb with
        | .ok r => (.ok r, true)
        | .error e2 =>
          match e2 with
          | .openai _ => (.error e, true)
          | .other _ => (.error e2, true)
      else (.error e, false)
    | .other _ => (.error e, false)

/-- **C7.**  When the primary model raises a provider error (`OpenAIError`) and the
configured fallback model also raises a provider error, the error propagated by
`get_completion` is the original primary-model error, not the fallback's
(`_try_fallback` re-raises `original_error`). -/
theorem c7_fallback_preserves_original_error
    (cfgFallback : Option String) (hcfg : cfgFallback.isSome) (m1 m2 : String) :
    (getCompletion cfgFallback true (.error (.openai m1)) (.error (.openai m2))).1 =
      .error (.openai m1) := by
  simp [getCompletion, hcfg]

/-- **C7 — witness.**  Both models raising provider errors, with the
`openai4o → gpt-4o-mini` fallback configuration of MODEL_CONFIGS. -/
theorem c7_fallback_preserves_original_error_witness :
    (getCompletion (some "gpt-4o-mini") true (.error (.openai "primary down"))
      (.error (.openai "fallback down"))).1 = .error (.openai "primary down") :=
  c7_fallback_preserves_original_error (some "gpt-4o-mini") rfl "primary down" "fallback down"

/-- The retry loop of `process_batch` (ranking.py lines 594-630) around
`model.get_completion`.  Attempts are numbered from 0; `pO i` / `fO i` are the
primary / fallback call outcomes at attempt `i`; `remaining` counts the attempts
still allowed (initially `max_retries`, which the callers fix at 3).  A failed
attempt that is not the last sleeps `2 ** attempt` seconds and retries; the last
failure re-raises.  Returns the result, the list of backoff delays slept (in
order), and the number of fallback-model calls made. -/
def retryGo (cfgFallback : Option String) (pO fO : Nat → Except PyErr String) :
    Nat → Nat → List Nat → Nat → Except PyErr String × List Nat × Nat
  | 0, _, delays, fbCalls => (.error (.other "loop not entered"), delays, fbCalls)
  | remaining + 1, attempt, delays, fbCalls =>
    let step := getCompletion cfgFallback true (pO attempt) (fO attempt)
    let fbCalls' := fbCalls + (if step.2 then 1 else 0)
    match step.1 with
    | .ok r => (.ok r, delays, fbCalls')
    | .error e =>
      if remaining = 0 then (.error e, delays, fbCalls')
      else retryGo cfgFallback pO fO remaining (attempt + 1) (delays ++ [2 ^ attempt]) fbCalls'

/-- The scoring call of `process_batch`: its retry loop entered at attempt 0. -/
def scoringCall (cfgFallback : Option String) (pO fO : Nat → Except PyErr String)
    (maxRetries : Nat) : Except PyErr String × List Nat × Nat :=
  retryGo cfgFallback pO fO maxRetries 0 [] 0

/-- Primary-model behaviour for the C6 scenario: provider errors on attempts
0 and 1, success on attempt 2. -/
def c6Primary : Nat → Except PyErr String :=
  fun i => if i < 2 then .error (.openai "rate limited") else .ok "scores"

/-- Fallback-model behaviour for the C6 counterexample: always a provider error. -/
def c6Fallback : Nat → Except PyErr String :=
  fun _ => .error (.openai "fallback down")

/-- **C6 — counterexample.**  Every entry of MODEL_CONFIGS configures a
`fallback_model`, and `get_completion` attempts the fallback inside *each* failed
attempt.  With the primary failing on attempts 1 and 2 and succeeding on attempt 3
(`maxRetries = 3`), the call does succeed after the two backoff delays of 1s and
2s — but the fallback model has already been called twice, refuting "no
fallback-model call is made before the same-model retries are exhausted". -/
theorem c6_fallback_called_before_retries_exhausted :
    scoringCall (some "gemini/gemini-2.0-flash") c6Primary c6Fallback 3 =
      (.ok "scores", [1, 2], 2) ∧ (2 : Nat) ≠ 0 :=
  ⟨rfl, by decide⟩

/-- **C6 (amended).**  With *no* fallback model configured, a provider failing on
attempts 1 and 2 with provider errors and succeeding on attempt 3 (`maxRetries = 3`)
yields the successful result after exactly two backoff delays of `2 ** attempt`
seconds — 1s then 2s — and zero fallback-model calls.  (With a fallback model
configured, as for every MODEL_CONFIGS key, a fallback attempt is made within each
failed attempt — before the same-model retries are exhausted.) -/
theorem c6_retry_backoff (pO fO : Nat → Except PyErr String) (e0 e1 r : String)
    (h0 : pO 0 = .error (.openai e0)) (h1 : pO 1 = .error (.openai e1))
    (h2 : pO 2 = .ok r) :
    scoringCall none pO fO 3 = (.ok r, [1, 2], 0) := by
  simp [scoringCall, retryGo, getCompletion, h0, h1, h2]

/-- **C6 — witness.**  The amended retry/backoff behaviour at a concrete
fallback-free scenario. -/
theorem c6_retry_backoff_witness :
    scoringCall none c6Primary (fun _ => .error (.openai "unused")) 3 =
      (.ok "scores", [1, 2], 0) :=
  c6_retry_backoff c6Primary (fun _ => .error (.openai "unused"))
    "rate limited" "rate limited" "scores" rfl rfl rfl

/-! ## Batch scheduling and failure isolation
(ranking.py `chunk_list`, `process_people_direct`) -/

/-- Loop of `chunk_list` with an explicit iteration bound (`fuel`), so that the
definition stays kernel-computable: each step emits `take n` and recurses on
`drop n`.  `chunkList` enters it with `fuel = l.length`, which bounds the number
of iterations whenever `1 ≤ n`. -/
def chunkGo {α : Type} (n : Nat) : Nat → List α → List (List α)
  | 0, _ => []
  | _, [] => []
  | fuel + 1, x :: xs => ((x :: xs).take n) :: chunkGo n fuel ((x :: xs).drop n)

/-- `chunk_list`: contiguous slices of at most `n` elements
(`[lst[i:i+n] for i in range(0, len(lst), n)]`).  The `n = 0` guard mirrors the
fact that Python would raise for a zero step; every caller passes `batch_size = 5`. -/
def chunkList {α : Type} (l : List α) (n : Nat) : List (List α) :=
  if n = 0 then [] else chunkGo n l.length l

/-- `process_batch_with_semaphore` (ranking.py lines 747-759): run the worker on
one batch, catching any exception and substituting the empty result.  (The
semaphore only bounds how many workers run at once; each batch's result does not
depend on the interleaving, so the gather is modelled batch-wise.) -/
def perBatch {P R : Type} (worker : List P → Except PyErr (List R)) (b : List P) :
    List R :=
  match worker b with
  | .ok rs => rs
  | .error _ => []

/-- The scheduling stage of `process_people_direct` (ranking.py lines 741-767):
chunk into batches, run every batch through `process_batch_with_semaphore`, and
`extend` the collected results in batch order. -/
def gatherResults {P R : Type} (worker : List P → Except PyErr (List R))
    (people : List P) (batchSize : Nat) : List R :=
  (chunkList people batchSize).flatMap (perBatch worker)

/-- **C5.**  A single batch failure is isolated: if the worker raises for batch `i`
(after exhausting its own retries), the scheduler substitutes the empty result for
that batch and still returns the concatenation of the other batches' results, in
order — it neither aborts sibling batches nor raises (the gather is a total
function). -/
theorem c5_batch_failure_isolated {P R : Type}
    (worker : List P → Except PyErr (List R)) (people : List P) (batchSize : Nat)
    (i : Nat) (b : List P) (e : PyErr)
    (hb : (chunkList people batchSize)[i]? = some b)
    (hfail : worker b = .error e) :
    gatherResults worker people batchSize =
      ((chunkList people batchSize).take i).flatMap (perBatch worker) ++
      ((chunkList people batchSize).drop (i + 1)).flatMap (perBatch worker) := by
  set L := chunkList people batchSize with hL
  have hlt : i < L.length := by
    by_contra hge
    push_neg at hge
    rw [List.getElem?_eq_none hge] at hb
    exact Option.noConfusion hb
  have hib : L[i] = b := by
    rw [List.getElem?_eq_getElem hlt] at hb
    exact Option.some.inj hb
  have hsplit : L = L.take i ++ L[i] :: L.drop (i + 1) := by
    conv_lhs => rw [← List.take_append_drop i L]
    rw [List.drop_eq_getElem_cons hlt]
  calc gatherResults worker people batchSize
      = L.flatMap (perBatch worker) := rfl
    _ = (L.take i ++ L[i] :: L.drop (i + 1)).flatMap (perBatch worker) := by rw [← hsplit]
    _ = (L.take i).flatMap (perBatch worker) ++
          (perBatch worker L[i] ++ (L.drop (i + 1)).flatMap (perBatch worker)) := by
        rw [List.flatMap_append, List.flatMap_cons]
    _ = (L.take i).flatMap (perBatch worker) ++
          (L.drop (i + 1)).flatMap (perBatch worker) := by
        rw [hib]
        simp [perBatch, hfail]

/-- Worker for the C5 witness: fails on the middle batch `[3, 4]`. -/
def c5Worker : List Nat → Except PyErr (List Nat) :=
  fun b => if b = [3, 4] then .error (.other "boom") else .ok b

/-- **C5 — witness.**  Five people in batches of two; the middle batch fails and
the gather still returns the concatenation of the first and last batches. -/
theorem c5_batch_failure_isolated_witness :
    gatherResults c5Worker [1, 2, 3, 4, 5] 2 =
      ((chunkList [1, 2, 3, 4, 5] 2).take 1).flatMap (perBatch c5Worker) ++
      ((chunkList [1, 2, 3, 4, 5] 2).drop 2).flatMap (perBatch c5Worker) :=
  c5_batch_failure_isolated c5Worker [1, 2, 3, 4, 5] 2 1 [3, 4] (.other "boom")
    rfl rfl

/-- One ranked-result dict as it reaches the final sort of `process_people_direct`:
its `recommendationScore` entry (which `extract_score_data` may have set to `None`)
and the remaining entries. -/
structure RankedRecord where
  recommendationScore : Option ℚ
  payload : List (String × PyVal)
deriving DecidableEq, Repr

/-- The final sort of `process_people_direct` (ranking.py line 775):
`sorted(results, key=lambda x: x.get('recommendationScore', 0), reverse=True)`
— a stable descending sort on the score. -/
def sortRanked (rs : List RankedRecord) : List RankedRecord :=
  rs.mergeSort (fun a b =>
    decide ((b.recommendationScore.getD 0) ≤ (a.recommendationScore.getD 0)))

/-- Python's `sorted` raises `TypeError` as soon as a `None` key is compared with
anything — which happens exactly when the list has at least two elements and some
record carries a `None` score; otherwise it returns the stable descending order. -/
def sortStage (rs : List RankedRecord) : Except PyErr (List RankedRecord) :=
  if 2 ≤ rs.length ∧ rs.any (fun r => r.recommendationScore.isNone) then
    .error (.other "TypeError: NoneType comparison")
  else .ok (sortRanked rs)

/-- `process_people_direct` (ranking.py lines 709-795): batching, per-batch error
folding, concatenation and the final sort, all inside
`try: … except Exception: return []`. -/
def processPeopleDirect {P : Type}
    (worker : List P → Except PyErr (List RankedRecord)) (people : List P)
    (batchSize : Nat) : List RankedRecord :=
  match sortStage (gatherResults worker people batchSize) with
  | .ok v => v
  | .error _ => []

/-- **C10.**  `process_people_direct` never propagates an exception: it is a total
function into result lists.  Per-batch worker failures are already folded into
empty per-batch results inside the gather; the one internal failure that escapes
them — the final sort raising `TypeError` on a `None` score — is caught by the
surrounding `except Exception`, making the function return `[]`.  In every other
case the output is a permutation of the gathered batch results (their stable
descending sort). -/
theorem c10_process_people_direct_total {P : Type}
    (worker : List P → Except PyErr (List RankedRecord)) (people : List P)
    (batchSize : Nat) :
    ((2 ≤ (gatherResults worker people batchSize).length ∧
        (gatherResults worker people batchSize).any
          (fun r => r.recommendationScore.isNone)) →
      processPeopleDirect worker people batchSize = []) ∧
    (processPeopleDirect worker people batchSize = [] ∨
      (processPeopleDirect worker people batchSize).Perm
        (gatherResults worker people batchSize)) := by
  constructor
  · intro hcond
    unfold processPeopleDirect sortStage
    rw [if_pos hcond]
  · unfold processPeopleDirect sortStage
    by_cases hcond : 2 ≤ (gatherResults worker people batchSize).length ∧
        (gatherResults worker people batchSize).any
          (fun r => r.recommendationScore.isNone)
    · rw [if_pos hcond]
      exact Or.inl rfl
    · rw [if_neg hcond]
      exact Or.inr (List.mergeSort_perm _ _)

/-- Worker for the C10 witness: one batch yielding a `None`-scored record next to a
scored one, so the final sort's key comparison would raise in Python. -/
def c10Worker : List Nat → Except PyErr (List RankedRecord) :=
  fun _ => .ok [⟨none, []⟩, ⟨some 5, []⟩]

/-- **C10 — witness.**  The internal `TypeError` scenario at a concrete input:
the whole call returns `[]` instead of raising. -/
theorem c10_process_people_direct_total_witness :
    processPeopleDirect c10Worker [0] 1 = [] :=
  (c10_process_people_direct_total c10Worker [0] 1).1 (by decide)

/-! ## Tolerant response parsing (ranking.py `extract_score_data`) -/

/-- Index of the first occurrence of `needle` in `hay` (the anchor-free part of
`re.search` / `re.finditer` for a literal pattern). -/
def findSub (needle : List Char) : List Char → Option Nat
  | [] => if needle.isPrefixOf ([] : List Char) then some 0 else none
  | c :: t =>
    if needle.isPrefixOf (c :: t) then some 0
    else (findSub needle t).map (· + 1)

/-- Python's `\s` / `str.strip()` whitespace: space, tab, newline, carriage
return, vertical tab, form feed. -/
def pyIsSpace (c : Char) : Bool :=
  c = ' ' || c = '\t' || c = '\n' || c = '\r' || c = Char.ofNat 11 || c = Char.ofNat 12

/-- `str.strip()`: drop whitespace from both ends. -/
def pyStrip (l : List Char) : List Char :=
  ((l.dropWhile pyIsSpace).reverse.dropWhile pyIsSpace).reverse

/-- `str.strip('[]')`: drop `[` and `]` characters from both ends. -/
def stripBrackets (l : List Char) : List Char :=
  ((l.dropWhile fun c => c = '[' || c = ']').reverse.dropWhile
    fun c => c = '[' || c = ']').reverse

/-- Numeric value of a digit string. -/
def natVal (l : List Char) : Nat :=
  l.foldl (fun acc c => acc * 10 + (c.toNat - 48)) 0

/-- Python `float(s)` on the decimal literals the pipeline produces: optional
surrounding whitespace, optional sign, digits with an optional fractional part.
(Exponent/`inf`/`nan` forms, which no response field uses, are not modelled and
fall to `none`, i.e. the code's `0.0` fallback.) -/
def parseFloat (l0 : List Char) : Option ℚ :=
  let l := pyStrip l0
  let signed : ℚ × List Char :=
    match l with
    | '-' :: t => (-1, t)
    | '+' :: t => (1, t)
    | _ => (1, l)
  let ip := signed.2.takeWhile Char.isDigit
  let rest := signed.2.dropWhile Char.isDigit
  match rest with
  | [] => if ip = [] then none else some (signed.1 * natVal ip)
  | '.' :: t =>
    let fp := t.takeWhile Char.isDigit
    let rest2 := t.dropWhile Char.isDigit
    if rest2 = [] ∧ (ip ≠ [] ∨ fp ≠ []) then
      some (signed.1 * ((natVal ip : ℚ) + (natVal fp : ℚ) / (10 : ℚ) ^ fp.length))
    else none
  | _ => none

/-- The five match-score tags whose missing value is `None` and whose text is
coerced to a float. -/
def matchTags : List String :=
  ["skillMatch", "locationMatch", "entityMatch", "databaseMatch", "sectorMatch"]

/-- `convert_value` (ranking.py lines 444-468): numeric sentinels with or without
brackets, case-insensitive nulls, float coercion (default 0.0) for the score and
match tags, and otherwise the text with brackets and whitespace stripped. -/
def convertValue (value : List Char) (tag : String) : PyVal :=
  if value = "1".toList ∨ value = "[1]".toList ∨ value = "1.0".toList then .vNum 1
  else if value = "0".toList ∨ value = "[0]".toList ∨ value = "0.0".toList then .vNum 0
  else if value = "0.5".toList ∨ value = "[0.5]".toList then .vNum (1 / 2)
  else if value.map Char.toLower = "null".toList ∨
      value.map Char.toLower = "[null]".toList ∨
      value.map Char.toLower = "none".toList then .vNone
  else if tag = "recommendationScore" then
    match parseFloat (stripBrackets value) with
    | some q => .vNum q
    | none => .vNum 0
  else if tag ∈ matchTags then
    match parseFloat (stripBrackets value) with
    | some q => .vNum q
    | none => .vNum 0
  else .vStr (String.mk (pyStrip (stripBrackets value)))

/-- The literal `<tag>`. -/
def tagOpen (tag : String) : List Char := '<' :: (tag.toList ++ ['>'])

/-- The literal `</tag>`. -/
def tagClose (tag : String) : List Char := '<' :: '/' :: (tag.toList ++ ['>'])

/-- `re.search(f'<{tag}>(.*?)</{tag}>', region, re.DOTALL)` followed by
`.group(1).strip()`: content of the first open tag up to the first close tag
after it, whitespace-stripped; `none` when the pair is absent. -/
def extractTagged (region : List Char) (tag : String) : Option (List Char) :=
  match findSub (tagOpen tag) region with
  | none => none
  | some i =>
    let rest := region.drop (i + (tagOpen tag).length)
    match findSub (tagClose tag) rest with
    | none => none
    | some j => some (pyStrip (rest.take j))

/-- `extract_value` (ranking.py lines 433-442): a missing tag yields `None` for
the five match tags and `""` otherwise; a present tag's text goes through
`convert_value`. -/
def extractValue (region : List Char) (tag : String) : PyVal :=
  match extractTagged region tag with
  | none => if tag ∈ matchTags then .vNone else .vStr ""
  | some v => convertValue v tag

/-- Scanner for `extract_skills_from_output`'s `re.finditer(r'<skill>(.*?)</skill>', …)`
*without* `re.DOTALL`: content may not span a newline — an open tag whose
first-reachable close lies beyond a newline cannot match, and scanning resumes at
the next open tag.  `fuel` bounds the iterations (the scan consumes input). -/
def scanSkillsGo : Nat → List Char → List (List Char)
  | 0, _ => []
  | fuel + 1, s =>
    match findSub ("<skill>".toList) s with
    | none => []
    | some i =>
      let rest := s.drop (i + 7)
      match findSub ("</skill>".toList) rest with
      | none => []
      | some j =>
        let content := rest.take j
        if content.contains '\n' then scanSkillsGo fuel rest
        else content :: scanSkillsGo fuel (rest.drop (j + 8))

/-- `extract_skills_from_output` (ranking.py lines 410-415). -/
def extractSkills (s : List Char) : List String :=
  (scanSkillsGo (s.length + 1) s).map String.mk

/-- Scanner for `re.finditer(r'<output>\s*(.*?)\s*</output>', response, re.DOTALL)`
(ranking.py line 424-425): each match runs from an `<output>` tag to the first
`</output>` after it, its group is the whitespace-stripped interior, and scanning
resumes after the close tag.  An `<output>` with no subsequent close tag matches
nothing.  `fuel` bounds the iterations. -/
def scanOutputsGo : Nat → List Char → List (List Char)
  | 0, _ => []
  | fuel + 1, s =>
    match findSub ("<output>".toList) s with
    | none => []
    | some i =>
      let rest := s.drop (i + 8)
      match findSub ("</output>".toList) rest with
      | none => []
      | some j => pyStrip (rest.take j) :: scanOutputsGo fuel (rest.drop (j + 9))

/-- All well-formed `<output>…</output>` regions of a raw response. -/
def extractOutputs (s : List Char) : List (List Char) :=
  scanOutputsGo (s.length + 1) s

/-- One parsed profile output (the dict built at ranking.py lines 470-480). -/
structure ScoreData where
  id : PyVal
  skillMatch : PyVal
  locationMatch : PyVal
  entityMatch : PyVal
  databaseMatch : PyVal
  sectorMatch : PyVal
  recommendationScore : PyVal
  skills : List String
deriving DecidableEq, Repr

/-- The per-region body of `extract_score_data`'s loop.  Every field extraction is
defensive (missing tags yield `None`/`""`, bad numbers fall back to `0.0`), so the
region processing is total — in the source, a per-region exception would be caught
by the `except` at lines 485-489 and the region skipped. -/
def parseOutputBlock (region : List Char) : ScoreData :=
  { id := extractValue region "id"
    skillMatch := extractValue region "skillMatch"
    locationMatch := extractValue region "locationMatch"
    entityMatch := extractValue region "entityMatch"
    databaseMatch := extractValue region "databaseMatch"
    sectorMatch := extractValue region "sectorMatch"
    recommendationScore := extractValue region "recommendationScore"
    skills := extractSkills region }

/-- `extract_score_data` (ranking.py lines 418-498): scan the tolerant regions and
parse each one independently. -/
def extractScoreData (s : String) : List ScoreData :=
  (extractOutputs s.toList).map parseOutputBlock

/-- The C8 scenario: two well-formed `<output>` blocks and one block with a
missing closing tag. -/
def c8Response : String :=
  "<output><id>a</id></output><output><id>b</id></output><output><id>c"

/-- **C8.**  On a raw response containing two well-formed `<output>` blocks and one
block with a missing closing tag, `extract_score_data` returns exactly two records
(for the two well-formed blocks, here with ids `a` and `b`) and does not raise.
More generally the function is total and yields exactly one record per scanned
region: a region that cannot be parsed is skipped without aborting the others. -/
theorem c8_two_records_for_malformed_block :
    (extractScoreData c8Response).length = 2 ∧
    (extractScoreData c8Response).map ScoreData.id = [.vStr "a", .vStr "b"] ∧
    (∀ s : String, (extractScoreData s).length = (extractOutputs s.toList).length) :=
  ⟨by decide, by decide, fun s => List.length_map _ _⟩

/-! ## Further dict lemmas (for the reconciliation overlay) -/

theorem alookup_eq_none_iff {α : Type} (d : List (String × α)) (k : String) :
    alookup d k = none ↔ k ∉ dictKeys d := by
  induction d with
  | nil => simp
  | cons hd t ih =>
    obtain ⟨k', v'⟩ := hd
    by_cases hk : k' = k
    · subst hk
      simp
    · simp only [alookup_cons, if_neg hk, dictKeys_cons, List.mem_cons, ih]
      constructor
      · intro h
        rintro (h1 | h1)
        · exact hk h1.symm
        · exact h h1
      · intro h
        exact fun h1 => h (Or.inr h1)

theorem alookup_of_mem_nodup {α : Type} (d : List (String × α))
    (hnd : (dictKeys d).Nodup) (k : String) (w : α) (h : (k, w) ∈ d) :
    alookup d k = some w := by
  induction d with
  | nil => cases h
  | cons hd t ih =>
    obtain ⟨k', v'⟩ := hd
    rcases List.mem_cons.mp h with h1 | h1
    · obtain ⟨rfl, rfl⟩ := Prod.mk.injEq .. ▸ h1
      simp
    · have hkt : k ∈ dictKeys t := List.mem_map_of_mem Prod.fst h1
      have hk : ¬k' = k := by
        rintro rfl
        exact (List.nodup_cons.mp hnd).1 hkt
      rw [alookup_cons, if_neg hk]
      exact ih (List.nodup_cons.mp hnd).2 h1

theorem dictKeys_nodup_dictInsert {α : Type} (d : List (String × α)) (k : String) (v : α)
    (h : (dictKeys d).Nodup) : (dictKeys (dictInsert d k v)).Nodup := by
  by_cases hk : k ∈ dictKeys d
  · rw [dictKeys_dictInsert_of_mem _ _ _ hk]
    exact h
  · rw [dictKeys_dictInsert_of_not_mem _ _ _ hk]
    simp [List.nodup_append, h, hk]

theorem mem_dictKeys_dictInsert_self {α : Type} (d : List (String × α)) (k : String) (v : α) :
    k ∈ dictKeys (dictInsert d k v) := by
  by_cases hk : k ∈ dictKeys d
  · rw [dictKeys_dictInsert_of_mem _ _ _ hk]
    exact hk
  · rw [dictKeys_dictInsert_of_not_mem _ _ _ hk]
    simp

theorem mem_dictKeys_dictInsert_of_mem {α : Type} (d : List (String × α)) (k k' : String)
    (v : α) (h : k ∈ dictKeys d) : k ∈ dictKeys (dictInsert d k' v) := by
  by_cases hk : k' ∈ dictKeys d
  · rw [dictKeys_dictInsert_of_mem _ _ _ hk]
    exact h
  · rw [dictKeys_dictInsert_of_not_mem _ _ _ hk]
    exact List.mem_append_left _ h

@[simp] theorem dictInsertMany_nil {α : Type} (d : List (String × α)) :
    dictInsertMany d [] = d := rfl

theorem dictInsertMany_cons {α : Type} (d : List (String × α)) (p : String × α)
    (F : List (String × α)) :
    dictInsertMany d (p :: F) = dictInsertMany (dictInsert d p.1 p.2) F := rfl

theorem dictInsertMany_append {α : Type} (d : List (String × α))
    (F1 F2 : List (String × α)) :
    dictInsertMany d (F1 ++ F2) = dictInsertMany (dictInsertMany d F1) F2 :=
  List.foldl_append _ _ _ _

theorem alookup_dictInsertMany {α : Type} (d : List (String × α))
    (F : List (String × α)) (k : String) :
    alookup (dictInsertMany d F) k = (alookup F.reverse k).elim (alookup d k) some := by
  induction F using List.reverseRecOn generalizing d with
  | nil => simp [Option.elim]
  | append_singleton F p ih =>
    obtain ⟨k0, v0⟩ := p
    rw [dictInsertMany_append]
    show alookup (dictInsert (dictInsertMany d F) k0 v0) k = _
    rw [alookup_dictInsert, List.reverse_append]
    simp only [List.reverse_singleton, List.singleton_append, alookup_cons]
    by_cases hp : k0 = k
    · simp [hp, Option.elim]
    · simp only [if_neg hp]
      exact ih d

theorem mem_dictKeys_dictInsertMany_of_mem {α : Type} (d : List (String × α))
    (F : List (String × α)) (k : String) (h : k ∈ dictKeys d) :
    k ∈ dictKeys (dictInsertMany d F) := by
  induction F generalizing d with
  | nil => exact h
  | cons p F ih =>
    rw [dictInsertMany_cons]
    exact ih _ (mem_dictKeys_dictInsert_of_mem _ _ _ _ h)

theorem mem_dictKeys_dictInsertMany_of_mem_fields {α : Type} (d : List (String × α))
    (F : List (String × α)) (p : String × α) (h : p ∈ F) :
    p.1 ∈ dictKeys (dictInsertMany d F) := by
  induction F generalizing d with
  | nil => cases h
  | cons q F ih =>
    rw [dictInsertMany_cons]
    rcases List.mem_cons.mp h with h1 | h1
    · subst h1
      exact mem_dictKeys_dictInsertMany_of_mem _ _ _ (mem_dictKeys_dictInsert_self _ _ _)
    · exact ih _ h1

theorem dictKeys_dictInsertMany_of_subset {α : Type} (d : List (String × α))
    (F : List (String × α)) (h : ∀ p ∈ F, p.1 ∈ dictKeys d) :
    dictKeys (dictInsertMany d F) = dictKeys d := by
  induction F generalizing d with
  | nil => rfl
  | cons p F ih =>
    rw [dictInsertMany_cons]
    have h1 : p.1 ∈ dictKeys d := h p (List.mem_cons_self _ _)
    rw [ih _ fun q hq => ?_, dictKeys_dictInsert_of_mem _ _ _ h1]
    rw [dictKeys_dictInsert_of_mem _ _ _ h1]
    exact h q (List.mem_cons_of_mem _ hq)

theorem dictKeys_nodup_dictInsertMany {α : Type} (d : List (String × α))
    (F : List (String × α)) (h : (dictKeys d).Nodup) :
    (dictKeys (dictInsertMany d F)).Nodup := by
  induction F generalizing d with
  | nil => exact h
  | cons p F ih =>
    rw [dictInsertMany_cons]
    exact ih _ (dictKeys_nodup_dictInsert _ _ _ h)

/-- Two dicts with the same (duplicate-free) key sequence and the same lookups are
equal. -/
theorem dict_ext {α : Type} :
    ∀ (d1 d2 : List (String × α)), dictKeys d1 = dictKeys d2 → (dictKeys d1).Nodup →
      (∀ k, alookup d1 k = alookup d2 k) → d1 = d2
  | [], [], _, _, _ => rfl
  | [], (_, _) :: _, hk, _, _ => by simp at hk
  | (_, _) :: _, [], hk, _, _ => by simp at hk
  | (k1, v1) :: t1, (k2, v2) :: t2, hk, hnd, hl => by
    simp only [dictKeys_cons, List.cons.injEq] at hk
    obtain ⟨rfl, hkt⟩ := hk
    have hv : v1 = v2 := by
      have := hl k1
      simpa using this
    subst hv
    have hk1t : k1 ∉ dictKeys t1 := (List.nodup_cons.mp hnd).1
    have hk2t : k1 ∉ dictKeys t2 := hkt ▸ hk1t
    have htl : ∀ k, alookup t1 k = alookup t2 k := by
      intro k
      by_cases hkk : k = k1
      · subst hkk
        rw [(alookup_eq_none_iff _ _).mpr hk1t, (alookup_eq_none_iff _ _).mpr hk2t]
      · have hthis := hl k
        have hk1 : ¬k1 = k := fun h => hkk h.symm
        rw [alookup_cons, alookup_cons, if_neg hk1, if_neg hk1] at hthis
        exact hthis
    rw [dict_ext t1 t2 hkt (List.nodup_cons.mp hnd).2 htl]

/-- Re-applying the same sequence of dict writes is a no-op (the representation
invariant: dict key rows are duplicate-free). -/
theorem dictInsertMany_idem {α : Type} (d : List (String × α)) (F : List (String × α))
    (hnd : (dictKeys d).Nodup) :
    dictInsertMany (dictInsertMany d F) F = dictInsertMany d F := by
  apply dict_ext
  · exact dictKeys_dictInsertMany_of_subset _ _
      (fun p hp => mem_dictKeys_dictInsertMany_of_mem_fields _ _ _ hp)
  · rw [dictKeys_dictInsertMany_of_subset _ _
      (fun p hp => mem_dictKeys_dictInsertMany_of_mem_fields _ _ _ hp)]
    exact dictKeys_nodup_dictInsertMany _ _ hnd
  · intro k
    rw [alookup_dictInsertMany, alookup_dictInsertMany]
    cases alookup F.reverse k <;> simp [Option.elim]

/-! ## Candidates, score/reasoning records and the reconciliation overlay
(lambda_handler.py `process_reasoning_request`) -/

/-- The `reasoning` dict written into a candidate (lambda_handler.py lines 413-420):
`summary`, `highlights` and `metadata` from the reasoning result (with `""` / `[]`
defaults; a missing `metadata` keeps its `{}` default as `none` here),
`reasoning_complete`, and the `error` entry added only when the result carries one. -/
structure ReasoningData where
  summary : String
  highlights : PyVal
  metadata : Option PyVal
  reasoningComplete : Bool
  error : Option String
deriving DecidableEq, Repr

/-- One reasoning result dict (`batch_analyze_profiles` output) as read by the
reasoning overlay: its `nodeId` and the fields copied into `ReasoningData`. -/
structure ReasoningResult where
  nodeId : Option String
  summary : Option String
  highlights : Option PyVal
  metadata : Option PyVal
  error : Option String
deriving DecidableEq, Repr

/-- The dict literal assigned to `candidates_by_id[person_id]["reasoning"]`. -/
def mkReasoningData (r : ReasoningResult) : ReasoningData :=
  { summary := r.summary.getD ""
    highlights := r.highlights.getD (.vStrList [])
    metadata := r.metadata
    reasoningComplete := r.error.isNone
    error := r.error }

/-- A candidate dict from `results.candidates`.  The keys the reconciler reads
(`personId`, `similarity`) and writes (`score`, `ranked`, `reasoning`) are explicit
fields (`none` = key absent); every other entry — including the ranking metadata
keys (`skillMatch`, …, `skills`, `nodeId`, `userId`, `name`) the score overlay
copies in — lives in the `extras` dict, whose keys are disjoint from the explicit
field names. -/
structure Candidate where
  personId : String
  similarity : Option ℚ
  score : Option ℚ
  ranked : Option Bool
  reasoning : Option ReasoningData
  extras : List (String × PyVal)
deriving DecidableEq, Repr

/-- One ranked result as consumed by the score overlay: its `personId` entry (the
key `pop`ped at lambda_handler.py line 291 — absent on the records the ranking
stage actually emits, which carry `nodeId` instead), its `recommendationScore`
(numeric: a record with a `None` score cannot reach the overlay, since either the
final sort of `process_people_direct` or the threshold comparison would have
raised first), and the remaining entries (`fields`), which the overlay copies
into the candidate. -/
structure ScoreRecord where
  personId : Option String
  recommendationScore : ℚ
  fields : List (String × PyVal)
deriving DecidableEq, Repr

/-- `candidates_by_id = {c["personId"]: c for c in existing_candidates}`
(lambda_handler.py line 285): a dict comprehension — sequential dict writes. -/
def buildById (cs : List Candidate) : List (String × Candidate) :=
  cs.foldl (fun acc c => dictInsert acc c.personId c) []

/-- The per-record body of the score-overlay loop (lambda_handler.py lines
289-303) applied to the candidate it addresses: set `score` from the record's
`recommendationScore`, set `ranked = True`, and copy every other record entry
into the candidate dict. -/
def applyScore (c : Candidate) (r : ScoreRecord) : Candidate :=
  { c with
      score := some r.recommendationScore
      ranked := some true
      extras := dictInsertMany c.extras r.fields }

/-- The per-record body of the reasoning-overlay loop (lambda_handler.py lines
410-420): set the candidate's `reasoning` entry. -/
def applyReasoning (c : Candidate) (r : ReasoningResult) : Candidate :=
  { c with reasoning := some (mkReasoningData r) }

/-- Does record `r` address the candidate entry with key `k`?  Mirrors
`if not pid or pid not in candidates_by_id: continue` /
`if person_id and person_id in candidates_by_id:` — a missing or empty (falsy)
id never matches. -/
def recMatches {ρ : Type} (getPid : ρ → Option String) (k : String) (r : ρ) : Bool :=
  decide (getPid r = some k ∧ k ≠ "")

/-- One iteration of an overlay loop over the `candidates_by_id` dict: skip the
record when its id is missing, falsy, or not a key of the dict; otherwise update
the addressed candidate in place. -/
def overlayStep {ρ : Type} (getPid : ρ → Option String) (upd : Candidate → ρ → Candidate)
    (d : List (String × Candidate)) (r : ρ) : List (String × Candidate) :=
  match getPid r with
  | none => d
  | some pid =>
    if pid = "" then d
    else
      match alookup d pid with
      | none => d
      | some c => dictInsert d pid (upd c r)

/-- A whole overlay loop (`for ranked in filtered_ranked: …` /
`for result in results: …`). -/
def overlayAll {ρ : Type} (getPid : ρ → Option String) (upd : Candidate → ρ → Candidate)
    (d : List (String × Candidate)) (rs : List ρ) : List (String × Candidate) :=
  rs.foldl (overlayStep getPid upd) d

/-- The score overlay (lambda_handler.py lines 289-303). -/
def applyScoreRecords (d : List (String × Candidate)) (rs : List ScoreRecord) :
    List (String × Candidate) :=
  overlayAll (fun r => r.personId) applyScore d rs

/-- The reasoning overlay (lambda_handler.py lines 410-420). -/
def applyReasoningResults (d : List (String × Candidate)) (rs : List ReasoningResult) :
    List (String × Candidate) :=
  overlayAll (fun r => r.nodeId) applyReasoning d rs

/-- The effect of an overlay loop on one dict entry: fold the records that address
its key over the candidate. -/
def updEntry {ρ : Type} (getPid : ρ → Option String) (upd : Candidate → ρ → Candidate)
    (rs : List ρ) (e : String × Candidate) : String × Candidate :=
  (e.1, (rs.filter (recMatches getPid e.1)).foldl upd e.2)

theorem map_eq_self_of_mem {α : Type} (l : List α) (f : α → α) (h : ∀ a ∈ l, f a = a) :
    l.map f = l := by
  induction l with
  | nil => rfl
  | cons a t ih =>
    rw [List.map_cons, h a (List.mem_cons_self a t),
      ih (fun b hb => h b (List.mem_cons_of_mem _ hb))]

theorem dictInsert_eq_map_of_alookup {α : Type} (d : List (String × α)) (k : String)
    (c v : α) (hnd : (dictKeys d).Nodup) (ha : alookup d k = some c) :
    dictInsert d k v = d.map (fun e => if e.1 = k then (k, v) else e) := by
  induction d with
  | nil => cases ha
  | cons hd t ih =>
    obtain ⟨k1, c1⟩ := hd
    rw [alookup_cons] at ha
    by_cases hk : k1 = k
    · subst hk
      have hkt : k1 ∉ dictKeys t := (List.nodup_cons.mp hnd).1
      have hstep : dictInsert ((k1, c1) :: t) k1 v = (k1, v) :: t := by
        simp [dictInsert]
      have hmap : t.map (fun e => if e.1 = k1 then (k1, v) else e) = t := by
        apply map_eq_self_of_mem
        intro e he
        apply if_neg
        intro h
        exact hkt (h ▸ List.mem_map_of_mem Prod.fst he)
      rw [hstep, List.map_cons, if_pos rfl, hmap]
    · rw [if_neg hk] at ha
      simp only [dictInsert, if_neg hk, List.map_cons, if_neg hk]
      exact congrArg _ (ih (List.nodup_cons.mp hnd).2 ha)

theorem overlayStep_map {ρ : Type} (getPid : ρ → Option String)
    (upd : Candidate → ρ → Candidate) (d : List (String × Candidate)) (r : ρ)
    (hnd : (dictKeys d).Nodup) :
    overlayStep getPid upd d r =
      d.map (fun e => if recMatches getPid e.1 r then (e.1, upd e.2 r) else e) := by
  cases hp : getPid r with
  | none =>
    simp only [overlayStep, hp]
    symm
    apply map_eq_self_of_mem
    intro e _
    rw [if_neg (by simp [recMatches, hp])]
  | some pid =>
    simp only [overlayStep, hp]
    by_cases hpe : pid = ""
    · rw [if_pos hpe]
      symm
      apply map_eq_self_of_mem
      intro e _
      refine if_neg ?_
      simp only [recMatches, hp, decide_eq_true_eq, not_and, Option.some.injEq]
      intro h1 h2
      exact h2 (h1 ▸ hpe)
    · rw [if_neg hpe]
      cases ha : alookup d pid with
      | none =>
        have hnk : pid ∉ dictKeys d := (alookup_eq_none_iff _ _).mp ha
        symm
        apply map_eq_self_of_mem
        intro e he
        refine if_neg ?_
        simp only [recMatches, hp, decide_eq_true_eq, not_and, Option.some.injEq]
        rintro rfl
        exact absurd (List.mem_map_of_mem Prod.fst he) hnk
      | some c =>
        show dictInsert d pid (upd c r) = _
        rw [dictInsert_eq_map_of_alookup d pid c (upd c r) hnd ha]
        apply List.map_congr_left
        intro e he
        by_cases hek : e.1 = pid
        · rw [if_pos hek, if_pos (by simp [recMatches, hp, hek, hpe])]
          have hec : e.2 = c := by
            have h1 := alookup_of_mem_nodup d hnd e.1 e.2 (by simpa using he)
            rw [hek, ha] at h1
            exact (Option.some.inj h1).symm
          rw [hek, hec]
        · rw [if_neg hek,
            if_neg (by simp only [recMatches, hp, decide_eq_true_eq, not_and,
              Option.some.injEq]; rintro rfl; exact absurd rfl hek)]

theorem overlayStep_keys {ρ : Type} (getPid : ρ → Option String)
    (upd : Candidate → ρ → Candidate) (d : List (String × Candidate)) (r : ρ)
    (hnd : (dictKeys d).Nodup) :
    dictKeys (overlayStep getPid upd d r) = dictKeys d := by
  rw [overlayStep_map getPid upd d r hnd]
  unfold dictKeys
  rw [List.map_map, List.map_congr_left (fun e _ => ?_)]
  by_cases h : recMatches getPid e.1 r <;> simp [h]

/-- An overlay loop over a duplicate-free dict acts entry-wise: each candidate is
folded with exactly the records addressing its key, in record order. -/
theorem overlayAll_map {ρ : Type} (getPid : ρ → Option String)
    (upd : Candidate → ρ → Candidate) (d : List (String × Candidate)) (rs : List ρ)
    (hnd : (dictKeys d).Nodup) :
    overlayAll getPid upd d rs = d.map (updEntry getPid upd rs) := by
  induction rs generalizing d with
  | nil =>
    show d = _
    rw [List.map_congr_left (fun e _ => ?_), List.map_id]
    show e = (e.1, e.2)
    rfl
  | cons r rs ih =>
    show overlayAll getPid upd (overlayStep getPid upd d r) rs = _
    have hkeys := overlayStep_keys getPid upd d r hnd
    have hnd2 : (dictKeys (overlayStep getPid upd d r)).Nodup := hkeys ▸ hnd
    rw [ih _ hnd2, overlayStep_map getPid upd d r hnd, List.map_map]
    apply List.map_congr_left
    intro e _
    show updEntry getPid upd rs
        (if recMatches getPid e.1 r then (e.1, upd e.2 r) else e) =
      updEntry getPid upd (r :: rs) e
    unfold updEntry
    rw [List.filter_cons]
    by_cases hm : recMatches getPid e.1 r
    · rw [if_pos hm, if_pos hm]
      rfl
    · rw [if_neg hm, if_neg (by simpa using hm)]

theorem dictKeys_map_updEntry {ρ : Type} (getPid : ρ → Option String)
    (upd : Candidate → ρ → Candidate) (rs : List ρ) (d : List (String × Candidate)) :
    dictKeys (d.map (updEntry getPid upd rs)) = dictKeys d := by
  unfold dictKeys
  rw [List.map_map]
  apply List.map_congr_left
  intro e _
  rfl

/-- Folding score records over one candidate: the score comes from the last
record, `ranked` becomes true, and the records' remaining fields are written into
the candidate dict in order. -/
theorem getLastD_getLastD {α : Type} (l : List α) (d : α) :
    l.getLastD (l.getLastD d) = l.getLastD d := by
  cases l with
  | nil => rfl
  | cons a t => rw [List.getLastD_cons, List.getLastD_cons]

theorem getLastD_map_of_getLast? {α β : Type} (f : α → β) (l : List α) (y : α)
    (hy : l.getLast? = some y) (d : β) : (l.map f).getLastD d = f y := by
  rw [List.getLastD_eq_getLast?, List.getLast?_map, hy]
  rfl

/-- Folding score records over one candidate: the score comes from the last
record, `ranked` becomes true, and the records' remaining fields are written into
the candidate dict in order. -/
theorem foldl_applyScore_char (c : Candidate) (M : List ScoreRecord) :
    M.foldl applyScore c =
      { c with
          score := (M.map (fun r => some r.recommendationScore)).getLastD c.score
          ranked := if M.isEmpty then c.ranked else some true
          extras := dictInsertMany c.extras (M.flatMap ScoreRecord.fields) } := by
  induction M generalizing c with
  | nil => rfl
  | cons r M ih =>
    rw [List.foldl_cons, ih]
    cases M with
    | nil => simp [applyScore]
    | cons m M2 =>
      obtain ⟨y, hy⟩ : ∃ y, (m :: M2).getLast? = some y := by
        cases h : (m :: M2).getLast? with
        | none => exact absurd (List.getLast?_eq_none_iff.mp h) (by simp)
        | some y => exact ⟨y, rfl⟩
      have h1 : ((m :: M2).map (fun r => some r.recommendationScore)).getLastD
          (some r.recommendationScore) = some y.recommendationScore :=
        getLastD_map_of_getLast? _ _ y hy _
      have h2 : ((r :: m :: M2).map (fun r => some r.recommendationScore)).getLastD
          c.score = some y.recommendationScore :=
        getLastD_map_of_getLast? _ _ y (by rw [List.getLast?_cons_cons]; exact hy) _
      simp only [applyScore, h1, h2, List.isEmpty_cons, List.flatMap_cons,
        dictInsertMany_append, Bool.false_eq_true, if_false]

theorem foldl_applyScore_idem (c : Candidate) (M : List ScoreRecord)
    (hx : (dictKeys c.extras).Nodup) :
    M.foldl applyScore (M.foldl applyScore c) = M.foldl applyScore c := by
  rw [foldl_applyScore_char c M, foldl_applyScore_char]
  cases hE : M.isEmpty <;> cases hM : M.getLast? <;>
    simp [hE, hM, dictInsertMany_idem _ _ hx, List.getLastD_eq_getLast?]

theorem foldl_applyReasoning_char (c : Candidate) (M : List ReasoningResult) :
    M.foldl applyReasoning c =
      { c with
          reasoning :=
            (M.map (fun r => some (mkReasoningData r))).getLastD c.reasoning } := by
  induction M generalizing c with
  | nil => rfl
  | cons r M ih =>
    rw [List.foldl_cons, ih]
    cases M with
    | nil => simp [applyReasoning]
    | cons m M2 =>
      obtain ⟨y, hy⟩ : ∃ y, (m :: M2).getLast? = some y := by
        cases h : (m :: M2).getLast? with
        | none => exact absurd (List.getLast?_eq_none_iff.mp h) (by simp)
        | some y => exact ⟨y, rfl⟩
      have h1 : ((m :: M2).map (fun r => some (mkReasoningData r))).getLastD
          (some (mkReasoningData r)) = some (mkReasoningData y) :=
        getLastD_map_of_getLast? _ _ y hy _
      have h2 : ((r :: m :: M2).map (fun r => some (mkReasoningData r))).getLastD
          c.reasoning = some (mkReasoningData y) :=
        getLastD_map_of_getLast? _ _ y (by rw [List.getLast?_cons_cons]; exact hy) _
      simp only [applyReasoning, h1, h2]

theorem foldl_applyReasoning_idem (c : Candidate) (M : List ReasoningResult) :
    M.foldl applyReasoning (M.foldl applyReasoning c) = M.foldl applyReasoning c := by
  rw [foldl_applyReasoning_char c M, foldl_applyReasoning_char]
  cases hM : M.getLast? <;> simp [hM, List.getLastD_eq_getLast?]

theorem map_snd_dictInsert_eq {α β : Type} (d : List (String × α)) (k : String)
    (v : α) (f : α → β) (c : α) (ha : alookup d k = some c) (hf : f v = f c) :
    (dictInsert d k v).map (fun e => f e.2) = d.map (fun e => f e.2) := by
  induction d with
  | nil => cases ha
  | cons hd t ih =>
    obtain ⟨k1, c1⟩ := hd
    rw [alookup_cons] at ha
    by_cases hk : k1 = k
    · subst hk
      obtain rfl : c1 = c := Option.some.inj (by simpa using ha)
      simp [dictInsert, hf]
    · rw [if_neg hk] at ha
      simp only [dictInsert, if_neg hk, List.map_cons]
      rw [ih ha]

theorem overlayStep_preserves {ρ : Type} {β : Type} (getPid : ρ → Option String)
    (upd : Candidate → ρ → Candidate) (f : Candidate → β)
    (hf : ∀ c r, f (upd c r) = f c) (d : List (String × Candidate)) (r : ρ) :
    (overlayStep getPid upd d r).map (fun e => f e.2) = d.map (fun e => f e.2) := by
  unfold overlayStep
  cases getPid r with
  | none => rfl
  | some pid =>
    show (List.map (fun e => f e.2)
      (if pid = "" then d
       else match alookup d pid with
            | none => d
            | some c => dictInsert d pid (upd c r))) = _
    by_cases hpe : pid = ""
    · rw [if_pos hpe]
    · rw [if_neg hpe]
      cases ha : alookup d pid with
      | none => rfl
      | some c =>
        show (dictInsert d pid (upd c r)).map (fun e => f e.2) = _
        exact map_snd_dictInsert_eq d pid _ f c ha (hf c r)

theorem overlayAll_preserves {ρ : Type} {β : Type} (getPid : ρ → Option String)
    (upd : Candidate → ρ → Candidate) (f : Candidate → β)
    (hf : ∀ c r, f (upd c r) = f c) (d : List (String × Candidate)) (rs : List ρ) :
    (overlayAll getPid upd d rs).map (fun e => f e.2) = d.map (fun e => f e.2) := by
  induction rs generalizing d with
  | nil => rfl
  | cons r rs ih =>
    show (overlayAll getPid upd (overlayStep getPid upd d r) rs).map _ = _
    rw [ih (overlayStep getPid upd d r), overlayStep_preserves getPid upd f hf d r]

/-- **C9.**  The reconciliation overlay is idempotent and progressive:

* applying the same score records twice to the `candidates_by_id` dict yields the
  identical dict as applying them once (fields are set, not incremented or
  appended-to);
* likewise for the reasoning overlay;
* the reasoning overlay never erases a previously set `score`;
* the score overlay never erases a previously set `reasoning`.

The dict and each candidate's extra-field dict carry Python's dict representation
invariant: duplicate-free keys. -/
theorem c9_overlay_idempotent_and_progressive :
    (∀ (d : List (String × Candidate)) (rs : List ScoreRecord),
        (dictKeys d).Nodup → (∀ e ∈ d, (dictKeys e.2.extras).Nodup) →
        applyScoreRecords (applyScoreRecords d rs) rs = applyScoreRecords d rs) ∧
    (∀ (d : List (String × Candidate)) (rs : List ReasoningResult),
        (dictKeys d).Nodup →
        applyReasoningResults (applyReasoningResults d rs) rs =
          applyReasoningResults d rs) ∧
    (∀ (d : List (String × Candidate)) (rs : List ReasoningResult),
        (applyReasoningResults d rs).map (fun e => e.2.score) =
          d.map (fun e => e.2.score)) ∧
    (∀ (d : List (String × Candidate)) (rs : List ScoreRecord),
        (applyScoreRecords d rs).map (fun e => e.2.reasoning) =
          d.map (fun e => e.2.reasoning)) := by
  refine ⟨?_, ?_, ?_, ?_⟩
  · intro d rs hnd hex
    unfold applyScoreRecords
    rw [overlayAll_map _ _ _ _ hnd,
      overlayAll_map _ _ _ _ (by rw [dictKeys_map_updEntry]; exact hnd), List.map_map]
    apply List.map_congr_left
    intro e he
    show updEntry _ _ rs (updEntry _ _ rs e) = updEntry _ _ rs e
    unfold updEntry
    simp only
    rw [foldl_applyScore_idem e.2 _ (hex e he)]
  · intro d rs hnd
    unfold applyReasoningResults
    rw [overlayAll_map _ _ _ _ hnd,
      overlayAll_map _ _ _ _ (by rw [dictKeys_map_updEntry]; exact hnd), List.map_map]
    apply List.map_congr_left
    intro e _
    show updEntry _ _ rs (updEntry _ _ rs e) = updEntry _ _ rs e
    unfold updEntry
    simp only
    rw [foldl_applyReasoning_idem e.2 _]
  · intro d rs
    exact overlayAll_preserves (fun r => r.nodeId) applyReasoning Candidate.score
      (fun c r => rfl) d rs
  · intro d rs
    exact overlayAll_preserves (fun r => r.personId) applyScore Candidate.reasoning
      (fun c r => rfl) d rs

/-- A candidate and a score record for the C9 witness. -/
def c9Cand : Candidate :=
  ⟨"p", some (1 / 2), none, none, none, [("name", .vStr "Ada")]⟩

/-- The score record addressing `c9Cand` in the C9 witness. -/
def c9Rec : ScoreRecord := ⟨some "p", 7, [("skillMatch", .vNum 1)]⟩

/-- **C9 — witness.**  Idempotency and score preservation at a concrete dict. -/
theorem c9_overlay_idempotent_and_progressive_witness :
    applyScoreRecords (applyScoreRecords [("p", c9Cand)] [c9Rec]) [c9Rec] =
      applyScoreRecords [("p", c9Cand)] [c9Rec] ∧
    (applyReasoningResults [("p", c9Cand)]
        [⟨some "p", some "fit", none, none, none⟩]).map (fun e => e.2.score) =
      [("p", c9Cand)].map (fun e => e.2.score) :=
  ⟨c9_overlay_idempotent_and_progressive.1 [("p", c9Cand)] [c9Rec] (by decide)
      (by decide),
   c9_overlay_idempotent_and_progressive.2.2.1 [("p", c9Cand)]
      [⟨some "p", some "fit", none, none, none⟩]⟩

/-! ## Final candidate ordering (lambda_handler.py lines 305-313) -/

/-- The first component of the sort key: `x.get("score", -1)`. -/
def scoreKey (c : Candidate) : ℚ := c.score.getD (-1)

/-- The second component of the sort key: `x.get("similarity", 0)`. -/
def simKey (c : Candidate) : ℚ := c.similarity.getD 0

/-- "`a` may precede `b`" under Python's stable
`sorted(key=lambda x: (x.get("score", -1), x.get("similarity", 0)), reverse=True)`:
the key of `a` is lexicographically ≥ the key of `b`. -/
def candBefore (a b : Candidate) : Prop :=
  scoreKey b < scoreKey a ∨ (scoreKey a = scoreKey b ∧ simKey b ≤ simKey a)

instance : DecidableRel candBefore := fun a b =>
  inferInstanceAs (Decidable (scoreKey b < scoreKey a ∨
    (scoreKey a = scoreKey b ∧ simKey b ≤ simKey a)))

instance : IsTotal Candidate candBefore := by
  constructor
  intro a b
  unfold candBefore
  rcases lt_trichotomy (scoreKey a) (scoreKey b) with h | h | h
  · exact Or.inr (Or.inl h)
  · rcases le_total (simKey b) (simKey a) with hs | hs
    · exact Or.inl (Or.inr ⟨h, hs⟩)
    · exact Or.inr (Or.inr ⟨h.symm, hs⟩)
  · exact Or.inl (Or.inl h)

instance : IsTrans Candidate candBefore := by
  constructor
  intro a b c hab hbc
  unfold candBefore at *
  rcases hab with h1 | ⟨h1, h1s⟩ <;> rcases hbc with h2 | ⟨h2, h2s⟩
  · exact Or.inl (h2.trans h1)
  · exact Or.inl (h2 ▸ h1)
  · exact Or.inl (lt_of_lt_of_le h2 (le_of_eq h1.symm))
  · exact Or.inr ⟨h1.trans h2, h2s.trans h1s⟩

/-- The final sort: Python's `sorted` is a stable sort, and the stable sort of a
list under a total preorder is unique; Mathlib's `insertionSort` (stable) realizes
it. -/
def sortCandidates (cs : List Candidate) : List Candidate :=
  List.insertionSort candBefore cs

/-- The threshold filter
`[r for r in ranked_results if r.get("recommendationScore", 0) >= score_threshold]`
(lambda_handler.py lines 276-279). -/
def filterByThreshold (rs : List ScoreRecord) (θ : ℚ) : List ScoreRecord :=
  rs.filter (fun r => θ ≤ r.recommendationScore)

/-- The score-reconciliation path of `process_reasoning_request` (lambda_handler.py
lines 275-313): threshold-filter the ranked records, build `candidates_by_id` from
the stored candidates, overlay the surviving records, and sort the dict's values
by `(score, similarity)` descending. -/
def reconcileScores (existing : List Candidate) (ranked : List ScoreRecord) (θ : ℚ) :
    List Candidate :=
  sortCandidates
    ((applyScoreRecords (buildById existing) (filterByThreshold ranked θ)).map Prod.snd)

/-- The ordering the claim asserts between two candidates appearing in this order
in the final list: a scored candidate before a scored one by `(score desc,
similarity desc)`; scored strictly before unscored; unscored before unscored by
similarity descending. -/
def specOrder (a b : Candidate) : Prop :=
  match a.score, b.score with
  | some sa, some sb => sb < sa ∨ (sa = sb ∧ simKey b ≤ simKey a)
  | some _, none => True
  | none, some _ => False
  | none, none => simKey b ≤ simKey a

/-- Candidate `A` of the spec's sorting example. -/
def candA : Candidate := ⟨"A", some (1 / 2), some 8, none, none, []⟩

/-- Candidate `B` of the spec's sorting example (`score: null`). -/
def candB : Candidate := ⟨"B", some (9 / 10), none, none, none, []⟩

/-- Candidate `C` of the spec's sorting example. -/
def candC : Candidate := ⟨"C", some (7 / 10), some 8, none, none, []⟩

/-- A candidate carrying a stale negative score. -/
def c2X : Candidate := ⟨"X", some 0, some (-5), none, none, []⟩

/-- An unscored candidate with high similarity. -/
def c2Y : Candidate := ⟨"Y", some (9 / 10), none, none, none, []⟩

/-- **C2 — counterexample.**  The sort key substitutes `-1` for a missing score, so
a candidate whose stored score is below `-1` sorts *after* unscored candidates: in
the reconciled list for `[X(score -5), Y(no score)]` with no fresh records, the
scored `X` comes after the unscored `Y`, refuting "scored strictly before every
candidate without a score" as an unconditional invariant. -/
theorem c2_negative_score_counterexample :
    reconcileScores [c2X, c2Y] [] (13 / 2) = [c2Y, c2X] ∧
    c2X.score = some (-5) ∧ c2Y.score = none :=
  ⟨by norm_num [reconcileScores, sortCandidates, applyScoreRecords, overlayAll,
      buildById, filterByThreshold, dictInsert, c2X, c2Y, candBefore, scoreKey, simKey],
    rfl, rfl⟩

/-- **C2 (amended).**  Provided every present score exceeds the `-1` sentinel used
for missing scores (true of all threshold-filtered ranking scores under the
default threshold 6.5), the reconciled order lists scored candidates by
`(score desc, similarity desc)` strictly before all unscored candidates, and the
unscored candidates by similarity descending; in particular
`[A(8, 0.5), B(null, 0.9), C(8, 0.7)]` sorts to `[C, A, B]`. -/
theorem c2_sort_invariant :
    (∀ cs : List Candidate, (∀ c ∈ cs, ∀ s : ℚ, c.score = some s → -1 < s) →
      (sortCandidates cs).Pairwise specOrder) ∧
    sortCandidates [candA, candB, candC] = [candC, candA, candB] := by
  constructor
  · intro cs h
    have hs : (sortCandidates cs).Pairwise candBefore :=
      List.sorted_insertionSort candBefore cs
    refine hs.imp_of_mem ?_
    intro a b ha hb hab
    rw [sortCandidates, List.mem_insertionSort] at ha hb
    unfold candBefore at hab
    unfold specOrder
    cases hA : a.score with
    | none =>
      cases hB : b.score with
      | none =>
        simp only [scoreKey, simKey, hA, hB, Option.getD_none] at hab
        rcases hab with h1 | ⟨-, h1⟩
        · exact absurd h1 (lt_irrefl _)
        · exact h1
      | some sb =>
        have hsb := h b hb sb hB
        simp only [scoreKey, hA, hB, Option.getD_none, Option.getD_some] at hab
        rcases hab with h1 | ⟨h1, -⟩
        · exact absurd (h1.trans hsb) (lt_irrefl _)
        · exact absurd (h1 ▸ hsb) (lt_irrefl _)
    | some sa =>
      cases hB : b.score with
      | none => trivial
      | some sb =>
        simp only [scoreKey, simKey, hA, hB, Option.getD_some] at hab
        exact hab
  · norm_num [sortCandidates, candA, candB, candC, candBefore, scoreKey, simKey]

/-- **C2 — witness.**  The amended invariant at the spec's three-candidate
example. -/
theorem c2_sort_invariant_witness :
    (sortCandidates [candA, candB, candC]).Pairwise specOrder :=
  c2_sort_invariant.1 [candA, candB, candC] (by
    intro c hc s hs
    fin_cases hc <;> simp [candA, candB, candC] at hs <;> linarith)

theorem buildById_go (cs : List Candidate) (acc : List (String × Candidate))
    (hacc : ∀ c ∈ cs, c.personId ∉ dictKeys acc)
    (hnd : (cs.map Candidate.personId).Nodup) :
    cs.foldl (fun acc c => dictInsert acc c.personId c) acc =
      acc ++ cs.map (fun c => (c.personId, c)) := by
  induction cs generalizing acc with
  | nil => simp
  | cons a t ih =>
    rw [List.map_cons] at hnd
    rw [List.foldl_cons, dictInsert_of_not_mem _ _ _ (hacc a (List.mem_cons_self a t)),
      ih _ ?_ (List.nodup_cons.mp hnd).2]
    · simp
    · intro c hct
      unfold dictKeys
      rw [List.map_append, List.mem_append]
      rintro (h1 | h1)
      · exact hacc c (List.mem_cons_of_mem _ hct) h1
      · have : c.personId = a.personId := by simpa using h1
        exact (List.nodup_cons.mp hnd).1 (this ▸ List.mem_map_of_mem Candidate.personId hct)

/-- With duplicate-free candidate ids, the dict comprehension keeps every
candidate, in order. -/
theorem buildById_eq (cs : List Candidate) (hnd : (cs.map Candidate.personId).Nodup) :
    buildById cs = cs.map (fun c => (c.personId, c)) := by
  have h := buildById_go cs [] (by simp) hnd
  simpa [buildById] using h

theorem foldl_applyScore_personId (c : Candidate) (M : List ScoreRecord) :
    (M.foldl applyScore c).personId = c.personId := by
  rw [foldl_applyScore_char]

theorem filter_map_unique (l : List Candidate) (g : Candidate → Candidate) (c : Candidate)
    (hid : ∀ x, (g x).personId = x.personId)
    (hnd : (l.map Candidate.personId).Nodup) (hc : c ∈ l) (hgc : g c = c) :
    (l.map g).filter (fun x => decide (x.personId = c.personId)) = [c] := by
  induction l with
  | nil => cases hc
  | cons a t ih =>
    rw [List.map_cons] at hnd
    rw [List.map_cons, List.filter_cons]
    rcases List.mem_cons.mp hc with rfl | hct
    · rw [if_pos (by simp [hid]), hgc]
      have hnil : (t.map g).filter (fun x => decide (x.personId = c.personId)) = [] := by
        apply List.filter_eq_nil_iff.mpr
        intro x hx
        obtain ⟨x0, hx0, rfl⟩ := List.mem_map.mp hx
        simp only [decide_eq_true_eq, hid]
        intro h
        exact (List.nodup_cons.mp hnd).1 (h ▸ List.mem_map_of_mem Candidate.personId hx0)
      rw [hnil]
    · have hane : ¬(g a).personId = c.personId := by
        rw [hid a]
        intro h
        exact (List.nodup_cons.mp hnd).1
          (h ▸ List.mem_map_of_mem Candidate.personId hct)
      rw [if_neg (by simpa using hane)]
      exact ih (List.nodup_cons.mp hnd).2 hct

/-- A candidate already carrying a stored score from a previous write. -/
def c3Cand : Candidate := ⟨"p", some 0, some 9, none, none, []⟩

/-- **C3 — counterexample.**  The claim says a candidate for which no score record
survives has its previously stored score *cleared*.  Reconciling a candidate that
already carries `score = 9` with an empty record set leaves the candidate —
including its stale score — completely unchanged: nothing in
`process_reasoning_request` ever clears a score. -/
theorem c3_no_clearing_counterexample :
    reconcileScores [c3Cand] [] (13 / 2) = [c3Cand] ∧ c3Cand.score = some 9 :=
  ⟨by norm_num [reconcileScores, sortCandidates, applyScoreRecords, overlayAll,
      buildById, filterByThreshold, dictInsert, c3Cand],
    rfl⟩

/-- **C3 (amended).**  A candidate for which no score record survives the threshold
filter (none returned, or all excluded) is passed through reconciliation
completely **unchanged**: no score or reasoning is fabricated for it, and —
contrary to the original claim — a previously stored score is *not* cleared but
retained as-is.  Formally: the reconciled output contains exactly one candidate
with that candidate's id, and it is the input candidate itself. -/
theorem c3_unmatched_pass_through_unchanged
    (existing : List Candidate) (ranked : List ScoreRecord) (θ : ℚ)
    (hnd : (existing.map Candidate.personId).Nodup)
    (c : Candidate) (hc : c ∈ existing)
    (hno : ∀ r ∈ filterByThreshold ranked θ, r.personId ≠ some c.personId) :
    (reconcileScores existing ranked θ).filter
      (fun x => decide (x.personId = c.personId)) = [c] := by
  set F := filterByThreshold ranked θ with hF
  set g := fun x : Candidate =>
    (F.filter (recMatches (fun r : ScoreRecord => r.personId) x.personId)).foldl
      applyScore x with hg
  have hkeys : dictKeys (buildById existing) = existing.map Candidate.personId := by
    rw [buildById_eq existing hnd]
    unfold dictKeys
    rw [List.map_map]
    rfl
  have hndk : (dictKeys (buildById existing)).Nodup := by
    rw [hkeys]
    exact hnd
  have hv : (applyScoreRecords (buildById existing) F).map Prod.snd = existing.map g := by
    unfold applyScoreRecords
    rw [overlayAll_map _ _ _ _ hndk, buildById_eq existing hnd, List.map_map,
      List.map_map]
    rfl
  have hid : ∀ x : Candidate, (g x).personId = x.personId := fun x =>
    foldl_applyScore_personId x _
  have hgc : g c = c := by
    have hfil : F.filter (recMatches (fun r : ScoreRecord => r.personId) c.personId)
        = [] := by
      apply List.filter_eq_nil_iff.mpr
      intro r hr
      rw [recMatches, decide_eq_true_eq]
      rintro ⟨h1, -⟩
      exact hno r hr h1
    rw [hg]
    simp only
    rw [hfil]
    rfl
  show (sortCandidates
    ((applyScoreRecords (buildById existing) F).map Prod.snd)).filter _ = [c]
  rw [hv]
  have hperm : (sortCandidates (existing.map g)).Perm (existing.map g) :=
    List.perm_insertionSort candBefore (existing.map g)
  have hfp := hperm.filter (fun x => decide (x.personId = c.personId))
  rw [filter_map_unique existing g c hid hnd hc hgc] at hfp
  exact hfp.eq_singleton

/-- A second candidate for the C3 witness, addressed by the only record. -/
def c3Other : Candidate := ⟨"q", some 1, none, none, none, []⟩

/-- **C3 — witness.**  Two candidates; the only surviving record addresses the
other candidate, and `c3Cand` — stale score included — passes through unchanged. -/
theorem c3_unmatched_pass_through_unchanged_witness :
    (reconcileScores [c3Cand, c3Other] [⟨some "q", 7, []⟩] 5).filter
      (fun x => decide (x.personId = c3Cand.personId)) = [c3Cand] :=
  c3_unmatched_pass_through_unchanged [c3Cand, c3Other] [⟨some "q", 7, []⟩] 5
    (by decide) c3Cand (List.mem_cons_self _ _)
    (by
      intro r hr
      simp only [filterByThreshold, List.mem_filter] at hr
      rcases List.mem_cons.mp hr.1 with rfl | h1
      · simp [c3Cand]
      · cases h1)

end RankReason
